import Mathlib

/-!
Verification of the `mdarray` slice layer (`src/slice.rs`).

We shallowly embed the view data model: a view is a backing memory buffer
(a flat list of elements), a base offset, a list of dimension extents, a
list of per-axis strides, and a Dense/Strided layout tag.  Operations of
`Slice` are translated to pure functions on this structure; panicking
operations return `Option`.
-/

/-- Layout classification: contiguous row-major (`Dense`) or explicitly
strided (`Strided`), mirroring `crate::layout::{Dense, Strided}`. -/
inductive SLayout where
  | Dense : SLayout
  | Strided : SLayout
deriving DecidableEq

/-- A view: borrowed memory (`mem`), base offset into it, dimension extents,
per-axis strides, and the layout tag.  Mirrors `View` = pointer + `Mapping`
(shape, strides) from the source. Element type is fixed to `Int`. -/
structure SView where
  mem : List Int
  off : Int
  dims : List Nat
  strides : List Int
  layout : SLayout
deriving DecidableEq

/-- All index tuples of a shape, in row-major order (last axis fastest). -/
def allIdx : List Nat → List (List Nat)
  | [] => [[]]
  | d :: ds => (List.range d).flatMap fun i => (allIdx ds).map fun t => i :: t

/-- Linear offset contribution of an index tuple: `Σ idx[i] * strides[i]`. -/
def lin (ss : List Int) (idx : List Nat) : Int :=
  (List.zipWith (fun i s => (i : Int) * s) idx ss).sum

/-- Read one element at an index tuple (out-of-range reads default to 0;
all comparisons below use this same read so the model is consistent). -/
def readAt (mem : List Int) (ss : List Int) (off : Int) (idx : List Nat) : Int :=
  mem.getD (off + lin ss idx).toNat 0

/-- Read an element of a view at an index tuple. -/
def readV (v : SView) (idx : List Nat) : Int :=
  readAt v.mem v.strides v.off idx

/-- The element sequence of a mapping in row-major order. -/
def elementsOf (mem : List Int) (dims : List Nat) (ss : List Int) (off : Int) : List Int :=
  (allIdx dims).map fun idx => readAt mem ss off idx

/-- The element sequence of a view in row-major order. -/
def elements (v : SView) : List Int :=
  elementsOf v.mem v.dims v.strides v.off

/-- Row-major (dense) strides of a shape: stride of axis `i` is the product
of the extents after axis `i`. -/
def denseStrides : List Nat → List Int
  | [] => []
  | _ :: ds => ((ds.prod : Nat) : Int) :: denseStrides ds

/-- Number of elements: the product of the dimension extents. -/
def lenV (v : SView) : Nat := v.dims.prod

/-- `dim(i)` of a view (claims only use it in bounds, where the source
returns the extent). -/
def dimV (v : SView) (i : Nat) : Nat := v.dims.getD i 0

theorem length_allIdx (ds : List Nat) : (allIdx ds).length = ds.prod := by
  induction ds with
  | nil => rfl
  | cons d ds ih =>
    simp [allIdx, List.length_flatMap, Function.comp_def, ih, List.prod_cons,
      List.map_const', List.sum_replicate, smul_eq_mul, Nat.mul_comm]

theorem range_flatMap_mul (d p : Nat) :
    (List.range d).flatMap (fun i => (List.range p).map fun j => i * p + j) =
      List.range (d * p) := by
  induction d with
  | zero => simp
  | succ d ih =>
    rw [List.range_succ, List.flatMap_append, ih, Nat.succ_mul, List.range_add]
    simp

theorem lin_cons (s : Int) (ss : List Int) (i : Nat) (t : List Nat) :
    lin (s :: ss) (i :: t) = (i : Int) * s + lin ss t := by
  simp [lin]

theorem map_lin_allIdx_dense (ds : List Nat) :
    (allIdx ds).map (lin (denseStrides ds)) = (List.range ds.prod).map Int.ofNat := by
  induction ds with
  | nil => rfl
  | cons d ds ih =>
    rw [allIdx, denseStrides, List.map_flatMap, List.prod_cons,
      ← range_flatMap_mul d ds.prod, List.map_flatMap]
    refine congrArg (List.flatMap (List.range d)) (funext fun i => ?_)
    rw [List.map_map, List.map_map]
    have h1 : lin (((ds.prod : Nat) : Int) :: denseStrides ds) ∘ (fun t => i :: t) =
        (fun z => (i : Int) * ((ds.prod : Nat) : Int) + z) ∘ lin (denseStrides ds) := by
      funext t
      simp [lin_cons]
    rw [h1, ← List.map_map, ih, List.map_map]
    refine List.map_congr_left fun j _ => ?_
    show (i : Int) * ((ds.prod : Nat) : Int) + Int.ofNat j = Int.ofNat (i * ds.prod + j)
    push_cast [Int.ofNat_eq_coe]
    ring

theorem any_flatMap {α β : Type} (l : List α) (f : α → List β) (p : β → Bool) :
    (l.flatMap f).any p = l.any fun a => (f a).any p := by
  induction l with
  | nil => rfl
  | cons a l ih => simp [List.flatMap_cons, List.any_append, ih]

theorem readAt_cons (mem : List Int) (s : Int) (ss : List Int) (off : Int)
    (i : Nat) (t : List Nat) :
    readAt mem (s :: ss) off (i :: t) = readAt mem ss (off + (i : Int) * s) t := by
  rw [readAt, readAt, lin_cons, ← add_assoc]

theorem elementsOf_cons (mem : List Int) (d : Nat) (ds : List Nat) (ss : List Int) (off : Int) :
    elementsOf mem (d :: ds) ss off =
      (List.range d).flatMap fun i => elementsOf mem ds ss.tail (off + (i : Int) * ss.headI) := by
  rw [elementsOf, allIdx, List.map_flatMap]
  refine congrArg (List.flatMap (List.range d)) (funext fun i => ?_)
  rw [List.map_map, elementsOf]
  refine List.map_congr_left fun t _ => ?_
  cases ss with
  | nil => simp [readAt, lin]
  | cons s ss2 =>
    show readAt mem (s :: ss2) off (i :: t) = _
    rw [readAt_cons]
    rfl

theorem elementsOf_dense (mem : List Int) (ds : List Nat) (off : Int) :
    elementsOf mem ds (denseStrides ds) off =
      (List.range ds.prod).map fun i => mem.getD (off + Int.ofNat i).toNat 0 := by
  rw [elementsOf]
  have h1 : (fun idx => readAt mem (denseStrides ds) off idx) =
      (fun z : Int => mem.getD (off + z).toNat 0) ∘ lin (denseStrides ds) := rfl
  rw [h1, ← List.map_map, map_lin_allIdx_dense, List.map_map]
  rfl

theorem any_beq_iff_mem (l : List Int) (x : Int) : (l.any fun y => y == x) = true ↔ x ∈ l := by
  induction l with
  | nil => simp
  | cons a l ih =>
    rw [List.any_cons, List.mem_cons, Bool.or_eq_true, ih, beq_iff_eq]
    constructor
    · rintro (h | h)
      · exact Or.inl h.symm
      · exact Or.inr h
    · rintro (h | h)
      · exact Or.inl h.symm
      · exact Or.inr h

/-- Flattened-memory fast path for a Dense view: the `len` elements starting
at the base offset, in memory order (models `remap::<S, _>()[..]`). -/
def flatElems (v : SView) : List Int :=
  (List.range v.dims.prod).map fun i => v.mem.getD (v.off + Int.ofNat i).toNat 0

/-- Strided arm of `contains` (`fn contains`, src/slice.rs:922-930): rank < 2
scans the elements linearly; rank >= 2 recurses over the outermost axis
(the sub-views keep the same Strided layout, so recursion stays in this arm). -/
def containsStrided (mem : List Int) (x : Int) : List Nat → List Int → Int → Bool
  | [], ss, off => (elementsOf mem [] ss off).any fun y => y == x
  | [d], ss, off => (elementsOf mem [d] ss off).any fun y => y == x
  | d :: d2 :: ds, ss, off =>
      (List.range d).any fun i =>
        containsStrided mem x (d2 :: ds) ss.tail (off + (i : Int) * ss.headI)

/-- `Slice::contains` (src/slice.rs:175-181 and 922-930): a Dense slice takes
the flattened-memory path, otherwise the Strided arm. -/
def containsV (v : SView) (x : Int) : Bool :=
  if v.layout = SLayout.Dense then (flatElems v).any fun y => y == x
  else containsStrided v.mem x v.dims v.strides v.off

theorem containsStrided_eq_any (mem : List Int) (x : Int) :
    (dims : List Nat) → (ss : List Int) → (off : Int) →
      containsStrided mem x dims ss off = (elementsOf mem dims ss off).any fun y => y == x
  | [], _, _ => rfl
  | [_], _, _ => rfl
  | d :: d2 :: ds, ss, off => by
      rw [containsStrided, elementsOf_cons, any_flatMap]
      exact congrArg (List.any (List.range d)) (funext fun i =>
        containsStrided_eq_any mem x (d2 :: ds) ss.tail (off + (i : Int) * ss.headI))

/-- Modelled from the spec: `Mapping::transpose` (in `mapping.rs`, not under
`src/`) reverses the axis order, i.e. reverses dims and strides; per spec 4.1
it equals `permute` with the fully reversed order, so the layout is unchanged
when that order is the identity (rank <= 1, matching the source result type
`<S::Tail as Shape>::Layout<L>`) and widens to `Strided` otherwise. -/
def transposeT (v : SView) : SView :=
  { mem := v.mem, off := v.off, dims := v.dims.reverse, strides := v.strides.reverse,
    layout := if v.dims.length ≤ 1 then v.layout else SLayout.Strided }

/-- `Slice::transpose` (src/slice.rs:649-655): applies `Mapping::transpose`.
Modelled from the spec: rank must be >= 1 (spec 4.1), so rank 0 fails. -/
def transposeV (v : SView) : Option SView :=
  if v.dims.length = 0 then none else some (transposeT v)

/-- Deprecated `Slice::reorder` (src/slice.rs:430-438): its body applies
`Mapping::transpose` to the mapping over the same base pointer, exactly as
`Slice::transpose` does. -/
def reorder (v : SView) : Option SView :=
  if v.dims.length = 0 then none else some (transposeT v)

/-- A Dense `[2,2]` view holding `[[1,2],[3,4]]` (row-major). -/
def ex22 : SView :=
  { mem := [1, 2, 3, 4], off := 0, dims := [2, 2], strides := [2, 1],
    layout := SLayout.Dense }

/-- A Dense row-major `[2,3]` view holding `1,2,3,4,5,6`. -/
def ex23 : SView :=
  { mem := [1, 2, 3, 4, 5, 6], off := 0, dims := [2, 3], strides := [3, 1],
    layout := SLayout.Dense }

/-- C1: for every slice, `contains(x)` is true iff some element of the slice
equals `x`, independent of layout (Dense uses the flattened-memory path,
Strided rank < 2 scans linearly, Strided rank >= 2 recurses over the
outermost axis); in particular the `[2,2]` view holding `[[1,2],[3,4]]`
reports `contains(3) == true` and `contains(9) == false` both under its
natural Dense layout and after a transpose (Strided layout). -/
theorem contains_iff_mem :
    (∀ (v : SView) (x : Int),
        (v.layout = SLayout.Dense → v.strides = denseStrides v.dims) →
        (containsV v x = true ↔ x ∈ elements v)) ∧
    containsV ex22 3 = true ∧ containsV ex22 9 = false ∧ ex22.layout = SLayout.Dense ∧
    (transposeV ex22).map (fun w => (containsV w 3, containsV w 9, w.layout)) =
      some (true, false, SLayout.Strided) := by
  refine ⟨fun v x h => ?_, by decide, by decide, rfl, by decide⟩
  by_cases hl : v.layout = SLayout.Dense
  · have he : elements v = flatElems v := by
      rw [elements, h hl, elementsOf_dense]
      rfl
    rw [containsV, if_pos hl, he]
    exact any_beq_iff_mem (flatElems v) x
  · rw [containsV, if_neg hl, containsStrided_eq_any]
    exact any_beq_iff_mem (elementsOf v.mem v.dims v.strides v.off) x

/-- Witness for C1: the general equivalence applied to the concrete Dense
`[2,2]` view. -/
theorem contains_iff_mem_check :
    (ex22.layout = SLayout.Dense → ex22.strides = denseStrides ex22.dims) ∧
    (containsV ex22 3 = true ↔ 3 ∈ elements ex22) :=
  ⟨by decide, contains_iff_mem.1 ex22 3 (by decide)⟩

/-- C2: the deprecated `reorder()` returns a view identical to the one
returned by `transpose()`: both bodies apply `Mapping::transpose` to the
same mapping over the same base pointer, so base memory, shape, strides,
layout and every element agree; there is no semantic divergence. -/
theorem reorder_eq_transpose : ∀ v : SView, reorder v = transposeV v :=
  fun _ => rfl

theorem map_getD_range {α : Type} (l : List α) (d : α) :
    (List.range l.length).map (fun i => l.getD i d) = l := by
  induction l with
  | nil => rfl
  | cons a l ih =>
    rw [List.length_cons, List.range_succ_eq_map, List.map_cons, List.map_map]
    have h2 : ((fun i => (a :: l).getD i d) ∘ Nat.succ) = fun i => l.getD i d := rfl
    show a :: _ = a :: l
    rw [h2, ih]

/-- Validity of an axis order: a bijection over `0..rank` (spec 4.1). -/
def isPermB (p : List Nat) (n : Nat) : Bool :=
  p.length = n && (List.range n).all fun i => List.elem i p

/-- Modelled from the spec: `Mapping::permute` (mapping.rs, not under `src/`)
reorders dims and strides by the axis order and panics when the order is not
a bijection over `0..rank`; a runtime axis order yields `Strided` layout
(spec 4.1 and the `permute` doc, src/slice.rs:363-381). -/
def permuteV (v : SView) (p : List Nat) : Option SView :=
  if isPermB p v.dims.length then
    some { mem := v.mem, off := v.off,
           dims := p.map fun i => v.dims.getD i 0,
           strides := p.map fun i => v.strides.getD i 0,
           layout := SLayout.Strided }
  else none

/-- The fully reversed axis order `[n-1, ..., 0]`. -/
def revPerm (n : Nat) : List Nat := (List.range n).reverse

theorem revPerm_isPerm (n : Nat) : isPermB (revPerm n) n = true := by
  simp [isPermB, revPerm, List.all_eq_true, List.elem_iff, List.mem_reverse, List.mem_range]

/-- C9: `transpose()` reverses the axis order and is equivalent to `permute`
with the fully reversed order: the two views have identical shape, strides
and element at every index; and transpose requires rank >= 1 (a rank-0
slice is a contract violation). -/
theorem transpose_eq_permute_reversed :
    (∀ v : SView, v.strides.length = v.dims.length →
      ∃ w : SView, permuteV v (revPerm v.dims.length) = some w ∧
        (transposeT v).dims = w.dims ∧ (transposeT v).strides = w.strides ∧
        (∀ idx : List Nat, readV (transposeT v) idx = readV w idx) ∧
        (transposeT v).dims = v.dims.reverse) ∧
    (∀ v : SView, v.dims = [] → transposeV v = none) := by
  constructor
  · intro v h
    refine ⟨{ mem := v.mem, off := v.off,
              dims := (revPerm v.dims.length).map fun i => v.dims.getD i 0,
              strides := (revPerm v.dims.length).map fun i => v.strides.getD i 0,
              layout := SLayout.Strided }, ?_, ?_, ?_, ?_, rfl⟩
    · rw [permuteV, if_pos (revPerm_isPerm v.dims.length)]
    · show v.dims.reverse = (revPerm v.dims.length).map fun i => v.dims.getD i 0
      rw [revPerm, List.map_reverse, map_getD_range]
    · show v.strides.reverse = (revPerm v.dims.length).map fun i => v.strides.getD i 0
      rw [← h, revPerm, List.map_reverse, map_getD_range]
    · intro idx
      show readAt v.mem v.strides.reverse v.off idx =
        readAt v.mem ((revPerm v.dims.length).map fun i => v.strides.getD i 0) v.off idx
      rw [← h, revPerm, List.map_reverse, map_getD_range]
  · intro v h
    rw [transposeV, h]
    rfl

/-- Witness for C9 at the concrete Dense `[2,3]` view. -/
theorem transpose_eq_permute_reversed_check :
    ex23.strides.length = ex23.dims.length ∧
    (∃ w : SView, permuteV ex23 (revPerm ex23.dims.length) = some w ∧
      (transposeT ex23).dims = w.dims ∧ (transposeT ex23).strides = w.strides ∧
      (∀ idx : List Nat, readV (transposeT ex23) idx = readV w idx) ∧
      (transposeT ex23).dims = ex23.dims.reverse) :=
  ⟨by decide, transpose_eq_permute_reversed.1 ex23 (by decide)⟩

/-- C4 (counterexample): the claim is false on the code: transposing the
Dense rank-2 view `ex22` twice yields a `Strided`-classified view, so the
original Dense-vs-Strided classification is not restored. -/
theorem transpose_twice_layout_cex :
    ((transposeV ex22).bind transposeV).map SView.layout = some SLayout.Strided ∧
    ex22.layout = SLayout.Dense ∧ SLayout.Strided ≠ SLayout.Dense := by
  decide

/-- C4 (amended): for rank >= 2, transposing twice restores the original
axis order — the original shape and strides, hence the same element at every
index — but the layout classification of the result is always `Strided`, so
the original Dense-vs-Strided classification is restored only when the
original view was Strided. -/
theorem transpose_twice :
    ∀ v : SView, 2 ≤ v.dims.length →
      (transposeV v).bind transposeV = some (transposeT (transposeT v)) ∧
      (transposeT (transposeT v)).dims = v.dims ∧
      (transposeT (transposeT v)).strides = v.strides ∧
      (∀ idx, readV (transposeT (transposeT v)) idx = readV v idx) ∧
      (transposeT (transposeT v)).layout = SLayout.Strided ∧
      (v.layout = SLayout.Strided → (transposeT (transposeT v)).layout = v.layout) := by
  intro v h
  have h0 : ¬ v.dims.length = 0 := by omega
  have h1 : ¬ (transposeT v).dims.length = 0 := by
    show ¬ v.dims.reverse.length = 0
    rw [List.length_reverse]
    omega
  have hL : ¬ (transposeT v).dims.length ≤ 1 := by
    show ¬ v.dims.reverse.length ≤ 1
    rw [List.length_reverse]
    omega
  refine ⟨?_, ?_, ?_, ?_, ?_, ?_⟩
  · rw [transposeV, if_neg h0]
    show transposeV (transposeT v) = _
    rw [transposeV, if_neg h1]
  · show v.dims.reverse.reverse = v.dims
    exact List.reverse_reverse _
  · show v.strides.reverse.reverse = v.strides
    exact List.reverse_reverse _
  · intro idx
    show readAt v.mem v.strides.reverse.reverse v.off idx = readAt v.mem v.strides v.off idx
    rw [List.reverse_reverse]
  · show (if (transposeT v).dims.length ≤ 1 then (transposeT v).layout else SLayout.Strided) =
      SLayout.Strided
    rw [if_neg hL]
  · intro hs
    show (if (transposeT v).dims.length ≤ 1 then (transposeT v).layout else SLayout.Strided) =
      v.layout
    rw [if_neg hL, hs]

/-- Witness for the amended C4 at the concrete Dense `[2,2]` view. -/
theorem transpose_twice_check :
    2 ≤ ex22.dims.length ∧
    (transposeV ex22).bind transposeV = some (transposeT (transposeT ex22)) :=
  ⟨by decide, (transpose_twice ex22 (by decide)).1⟩

theorem lin_set (ss : List Int) (idx : List Nat) (a j : Nat) (h : a < idx.length) :
    lin ss (idx.set a j) =
      lin ss idx + ((j : Int) - ((idx.getD a 0 : Nat) : Int)) * ss.getD a 0 := by
  induction idx generalizing ss a with
  | nil => simp at h
  | cons x xs ih =>
    cases a with
    | zero =>
      cases ss with
      | nil => simp [lin]
      | cons s ss2 =>
        simp only [List.set, lin_cons, List.getD_cons_zero]
        ring
    | succ a2 =>
      cases ss with
      | nil => simp [lin]
      | cons s ss2 =>
        have h2 : a2 < xs.length := by simpa using h
        simp only [List.set, lin_cons, List.getD_cons_succ]
        rw [ih ss2 a2 h2]
        ring

/-- Layout of views produced by axis-parameterized operations
(`Split<A, S, L>`): the first axis preserves the layout, any other axis
widens to `Strided` (doc comments on `split_axis_at` and `axis_at` in
src/slice.rs). -/
def splitL (a : Nat) (l : SLayout) : SLayout :=
  if a = 0 then l else SLayout.Strided

/-- Modelled from the spec: `split_axis_at(axis, mid)` (`View::split_axis_at`
is not under `src/`) divides the axis into `[0, mid)` and `[mid, dim(axis))`;
the second mapping's base offset is shifted by `mid * stride(axis)`; it fails
if `mid > dim(axis)` or the axis is out of bounds (spec 4.1 and the panic doc
on src/slice.rs:561-577). -/
def splitAxisAt (v : SView) (a mid : Nat) : Option (SView × SView) :=
  if a < v.dims.length ∧ mid ≤ v.dims.getD a 0 then
    some ({ mem := v.mem, off := v.off, dims := v.dims.set a mid,
            strides := v.strides, layout := splitL a v.layout },
          { mem := v.mem, off := v.off + (mid : Int) * v.strides.getD a 0,
            dims := v.dims.set a (v.dims.getD a 0 - mid),
            strides := v.strides, layout := splitL a v.layout })
  else none

/-- C5: `split_axis_at(axis, mid)` on an axis of extent `N` fails when
`mid > N`, and otherwise yields two sub-views with extents `mid` and
`N - mid` on that axis (all other dimensions unchanged), the second shifted
by `mid * stride(axis)`; element-wise, the original at any index equals the
first sub-view at that index when the axis coordinate is `< mid` and the
second sub-view at the coordinate shifted down by `mid` otherwise — i.e.
concatenating the two along that axis reproduces the original elements. -/
theorem split_axis_at_spec :
    (∀ (v : SView) (a mid : Nat), v.dims.getD a 0 < mid → splitAxisAt v a mid = none) ∧
    (∀ (v : SView) (a mid : Nat), a < v.dims.length → mid ≤ v.dims.getD a 0 →
      ∃ v1 v2 : SView, splitAxisAt v a mid = some (v1, v2) ∧
        v1.dims = v.dims.set a mid ∧
        v2.dims = v.dims.set a (v.dims.getD a 0 - mid) ∧
        v2.off = v1.off + (mid : Int) * v.strides.getD a 0 ∧
        (∀ idx : List Nat, a < idx.length →
          readV v idx = if idx.getD a 0 < mid then readV v1 idx
            else readV v2 (idx.set a (idx.getD a 0 - mid)))) := by
  constructor
  · intro v a mid h
    rw [splitAxisAt, if_neg]
    intro hc
    omega
  · intro v a mid ha hm
    refine ⟨_, _, by rw [splitAxisAt, if_pos ⟨ha, hm⟩], rfl, rfl, rfl, ?_⟩
    intro idx hlen
    by_cases hi : idx.getD a 0 < mid
    · rw [if_pos hi]
      rfl
    · rw [if_neg hi]
      show readAt v.mem v.strides v.off idx =
        readAt v.mem v.strides (v.off + (mid : Int) * v.strides.getD a 0)
          (idx.set a (idx.getD a 0 - mid))
      have hge : mid ≤ idx.getD a 0 := Nat.le_of_not_lt hi
      have hXY : v.off + lin v.strides idx =
          v.off + (mid : Int) * v.strides.getD a 0 +
            lin v.strides (idx.set a (idx.getD a 0 - mid)) := by
        rw [lin_set v.strides idx a _ hlen]
        push_cast [Nat.cast_sub hge]
        ring
      rw [readAt, readAt, hXY]

/-- Witness for C5: splitting the first axis of the `[2,3]` view at 1. -/
theorem split_axis_at_spec_check :
    0 < ex23.dims.length ∧ 1 ≤ ex23.dims.getD 0 0 ∧
    (∃ v1 v2 : SView, splitAxisAt ex23 0 1 = some (v1, v2) ∧
      v1.dims = ex23.dims.set 0 1 ∧
      v2.dims = ex23.dims.set 0 (ex23.dims.getD 0 0 - 1) ∧
      v2.off = v1.off + ((1 : Nat) : Int) * ex23.strides.getD 0 0 ∧
      (∀ idx : List Nat, 0 < idx.length →
        readV ex23 idx = if idx.getD 0 0 < 1 then readV v1 idx
          else readV v2 (idx.set 0 (idx.getD 0 0 - 1)))) :=
  ⟨by decide, by decide, split_axis_at_spec.2 ex23 0 1 (by decide) (by decide)⟩

/-- Modelled from the spec: `axis_at(axis, index)` (`View::axis_at` is not
under `src/`) removes the axis, shifts the base offset by
`index * stride(axis)`, and fails if the axis or index is out of bounds
(spec 4.1); indexing the first axis keeps the layout, any other axis widens
to `Strided` (doc on src/slice.rs:79-90). -/
def axisAt (v : SView) (a i : Nat) : Option SView :=
  if a < v.dims.length ∧ i < v.dims.getD a 0 then
    some { mem := v.mem, off := v.off + (i : Int) * v.strides.getD a 0,
           dims := v.dims.eraseIdx a, strides := v.strides.eraseIdx a,
           layout := splitL a v.layout }
  else none

/-- `Slice::row` (src/slice.rs:490-499): rank-2-only view of row `index`;
the `reshape` in its body only re-types the unchanged extents, and
`into_view(index, ..)` indexes the first axis, keeping the layout.
Modelled from the spec for the index plumbing outside `src/`. -/
def rowV (v : SView) (i : Nat) : Option SView :=
  if v.dims.length = 2 ∧ i < v.dims.getD 0 0 then
    some { mem := v.mem, off := v.off + (i : Int) * v.strides.getD 0 0,
           dims := [v.dims.getD 1 0], strides := [v.strides.getD 1 0],
           layout := v.layout }
  else none

/-- `Slice::col` (src/slice.rs:135-144): rank-2-only view of column `index`;
`into_view(.., index)` indexes the last axis, so the result is `Strided`.
Modelled from the spec for the index plumbing outside `src/`. -/
def colV (v : SView) (i : Nat) : Option SView :=
  if v.dims.length = 2 ∧ i < v.dims.getD 1 0 then
    some { mem := v.mem, off := v.off + (i : Int) * v.strides.getD 1 0,
           dims := [v.dims.getD 0 0], strides := [v.strides.getD 0 0],
           layout := SLayout.Strided }
  else none

/-- C7: on the Dense row-major `[2,3]` view holding `1,2,3,4,5,6`:
`row(0)` has elements `[1,2,3]`; `col(1)` has elements `[2,5]`; the
transpose has `dim(0) = 3` and `dim(1) = 2`; and `axis_at(0, 1)` yields the
same elements as `row(1)`. -/
theorem concrete_scenario_2x3 :
    (rowV ex23 0).map elements = some [1, 2, 3] ∧
    (colV ex23 1).map elements = some [2, 5] ∧
    (transposeV ex23).map (fun w => dimV w 0) = some 3 ∧
    (transposeV ex23).map (fun w => dimV w 1) = some 2 ∧
    (axisAt ex23 0 1).map elements = (rowV ex23 1).map elements ∧
    (axisAt ex23 0 1).map elements = some [4, 5, 6] := by
  decide

/-- `usize::MAX`, the "infer this dimension" marker (`!0` in the reshape
doc, src/slice.rs:450-467). -/
def usizeMAX : Nat := 2 ^ 64 - 1

/-- Modelled from the spec: resolution of the reshape target: at most one
dimension may be `usize::MAX`, inferred as the length divided by the product
of the others; fails if more than one is unspecified or the division is
inexact (spec 4.1). -/
def resolveDims (len : Nat) (tgt : List Nat) : Option (List Nat) :=
  if tgt.count usizeMAX = 0 then some tgt
  else if tgt.count usizeMAX = 1 then
    let p := (tgt.filter fun d => d != usizeMAX).prod
    if len % p = 0 then some (tgt.map fun d => if d = usizeMAX then len / p else d)
    else none
  else none

/-- The sequence of memory offsets a mapping visits in row-major order. -/
def offsetsSeq (dims : List Nat) (ss : List Int) (off : Int) : List Int :=
  (allIdx dims).map fun idx => off + lin ss idx

/-- Candidate strides for the target shape, derived from the source offset
sequence: the stride of axis `i` is the offset step at the row-major block
boundary `prod(dims after i)`. -/
def inferStrides (ns : List Nat) (S : List Int) : List Int :=
  (List.range ns.length).map fun i =>
    if (ns.drop (i + 1)).prod < S.length then
      S.getD (ns.drop (i + 1)).prod 0 - S.getD 0 0
    else 0

/-- Candidate strides of the reshaped mapping: row-major strides for a Dense
source, strides derived from the source offset sequence for a Strided one. -/
def candStrides (v : SView) (ns : List Nat) : List Int :=
  if v.layout = SLayout.Dense then denseStrides ns
  else inferStrides ns (offsetsSeq v.dims v.strides v.off)

/-- Modelled from the spec: the current strides admit the target shape iff
reading the target shape with consistent strides visits exactly the same
memory offsets in row-major order (a Dense mapping reshapes to any shape of
equal length; a Strided one only along stride-compatible boundaries,
spec 4.1). Returns the strides of the reshaped mapping on success. -/
def stridesAdmit (v : SView) (ns : List Nat) : Option (List Int) :=
  if offsetsSeq ns (candStrides v ns) v.off = offsetsSeq v.dims v.strides v.off then
    some (candStrides v ns)
  else none

/-- `Slice::reshape` (src/slice.rs:468-472); `Mapping::reshape` is not under
`src/` and is modelled from the spec: resolve the at-most-one inferred
dimension, then require the strides to admit the target shape; the layout
type parameter `L` is preserved. Panics are modelled as `none`. -/
def reshapeV (v : SView) (tgt : List Nat) : Option SView :=
  (resolveDims v.dims.prod tgt).bind fun ns =>
    (stridesAdmit v ns).map fun cs =>
      { mem := v.mem, off := v.off, dims := ns, strides := cs, layout := v.layout }

theorem length_offsetsSeq (dims : List Nat) (ss : List Int) (off : Int) :
    (offsetsSeq dims ss off).length = dims.prod := by
  rw [offsetsSeq, List.length_map, length_allIdx]

theorem stridesAdmit_prod (v : SView) (ns : List Nat) (cs : List Int)
    (h : stridesAdmit v ns = some cs) : ns.prod = v.dims.prod := by
  rw [stridesAdmit] at h
  split at h
  next hc =>
    have h2 := congrArg List.length hc
    rw [length_offsetsSeq, length_offsetsSeq] at h2
    exact h2
  next => exact absurd h (by simp)

theorem resolveDims_two (len : Nat) (tgt : List Nat) (h : 2 ≤ tgt.count usizeMAX) :
    resolveDims len tgt = none := by
  rw [resolveDims, if_neg (by omega), if_neg (by omega)]

theorem resolveDims_inexact (len : Nat) (tgt : List Nat) (h1 : tgt.count usizeMAX = 1)
    (h2 : ¬ len % (tgt.filter fun d => d != usizeMAX).prod = 0) :
    resolveDims len tgt = none := by
  unfold resolveDims
  rw [h1]
  simp [h2]

/-- C3: reshape succeeds iff — after resolving the at-most-one `usize::MAX`
inferred dimension, failing when more than one dimension is unspecified or
the inferred division is inexact — the total element count is preserved and
the current strides admit the target shape; on success the result shares the
same backing memory and base offset, and on failure nothing is mutated (the
model is a pure function of the source slice). -/
theorem reshape_spec :
    (∀ (v : SView) (tgt : List Nat),
      (reshapeV v tgt).isSome ↔
        ∃ ns, resolveDims v.dims.prod tgt = some ns ∧ ns.prod = v.dims.prod ∧
          (stridesAdmit v ns).isSome) ∧
    (∀ (v : SView) (tgt : List Nat) (w : SView), reshapeV v tgt = some w →
      w.mem = v.mem ∧ w.off = v.off ∧ w.dims.prod = v.dims.prod ∧ w.layout = v.layout) ∧
    (∀ (v : SView) (tgt : List Nat), 2 ≤ tgt.count usizeMAX → reshapeV v tgt = none) ∧
    (∀ (v : SView) (tgt : List Nat), tgt.count usizeMAX = 1 →
      ¬ v.dims.prod % (tgt.filter fun d => d != usizeMAX).prod = 0 →
      reshapeV v tgt = none) := by
  refine ⟨?_, ?_, ?_, ?_⟩
  · intro v tgt
    cases hr : resolveDims v.dims.prod tgt with
    | none => simp [reshapeV, hr]
    | some ns =>
      cases hs : stridesAdmit v ns with
      | none => simp [reshapeV, hr, hs]
      | some cs =>
        rw [reshapeV, hr, Option.some_bind', hs, Option.map_some']
        simp only [Option.isSome_some, true_iff]
        exact ⟨ns, rfl, stridesAdmit_prod v ns cs hs, by rw [hs]; rfl⟩
  · intro v tgt w hw
    cases hr : resolveDims v.dims.prod tgt with
    | none => simp [reshapeV, hr] at hw
    | some ns =>
      cases hs : stridesAdmit v ns with
      | none => simp [reshapeV, hr, hs] at hw
      | some cs =>
        rw [reshapeV, hr, Option.some_bind', hs, Option.map_some'] at hw
        have hww := Option.some.inj hw
        rw [← hww]
        exact ⟨rfl, rfl, stridesAdmit_prod v ns cs hs, rfl⟩
  · intro v tgt h
    rw [reshapeV, resolveDims_two _ _ h, Option.none_bind']
  · intro v tgt h1 h2
    rw [reshapeV, resolveDims_inexact _ _ h1 h2, Option.none_bind']

/-- The reshaped `[3,2]` view of `ex23`. -/
def exR32 : SView :=
  { mem := [1, 2, 3, 4, 5, 6], off := 0, dims := [3, 2], strides := [2, 1],
    layout := SLayout.Dense }

/-- Witness for C3: a successful Dense reshape `[2,3] -> [3,2]` preserving
memory, offset, length and layout, and a rejected two-marker target. -/
theorem reshape_spec_check :
    (reshapeV ex23 [3, 2] = some exR32 ∧
      exR32.mem = ex23.mem ∧ exR32.off = ex23.off ∧
      exR32.dims.prod = ex23.dims.prod ∧ exR32.layout = ex23.layout) ∧
    2 ≤ ([usizeMAX, usizeMAX].count usizeMAX) ∧
    reshapeV ex23 [usizeMAX, usizeMAX] = none :=
  ⟨⟨by decide, reshape_spec.2.1 ex23 [3, 2] exR32 (by decide)⟩,
   by decide, reshape_spec.2.2.1 ex23 [usizeMAX, usizeMAX] (by decide)⟩

/-- Modelled from the spec: per-axis broadcast combination for `Zip`: sizes
equal, or a size-1 axis replicated to the other's extent (spec 4.3). -/
def broadcastDim (a b : Nat) : Option Nat :=
  if a = b then some a else if a = 1 then some b else if b = 1 then some a else none

/-- Collects per-axis results, failing if any axis failed to combine. -/
def seqOpt : List (Option Nat) → Option (List Nat)
  | [] => some []
  | o :: os => o.bind fun a => (seqOpt os).map fun rest => a :: rest

/-- Modelled from the spec: the broadcast shape of two operands: a rank-0
side broadcasts against anything; otherwise the ranks must agree and every
axis must combine (spec 4.3). -/
def broadcastShape (a b : List Nat) : Option (List Nat) :=
  if a.length = 0 then some b
  else if b.length = 0 then some a
  else if a.length = b.length then seqOpt (List.zipWith broadcastDim a b)
  else none

/-- Index clamp for broadcasting: a size-1 axis always reads coordinate 0,
and a rank-0 operand reads the empty index tuple. -/
def clampIdx (dims idx : List Nat) : List Nat :=
  List.zipWith (fun d i => if d = 1 then 0 else i) dims idx

/-- Modelled from the spec: `Zip` of two views, as driven by `assign`
(src/slice.rs:52-59): it fails before producing any pair when the shapes are
not broadcast-compatible, and otherwise pairs, at every position of the
broadcast shape, the elements of the two operands with size-1 axes
replicated. -/
def zipViews (va vb : SView) : Option (List (Int × Int)) :=
  match broadcastShape va.dims vb.dims with
  | none => none
  | some ds =>
    some ((allIdx ds).map fun idx =>
      (readV va (clampIdx va.dims idx), readV vb (clampIdx vb.dims idx)))

/-- Broadcast compatibility in the spec's words: one side rank-0, or on
every axis the sizes are equal or one of them is exactly 1 (spec 4.3). -/
def BCompat (a b : List Nat) : Prop :=
  a = [] ∨ b = [] ∨ (a.length = b.length ∧
    ∀ i, i < a.length → a.getD i 0 = b.getD i 0 ∨ a.getD i 0 = 1 ∨ b.getD i 0 = 1)

theorem seqOpt_cons_isSome (o : Option Nat) (os : List (Option Nat)) :
    (seqOpt (o :: os)).isSome = (o.isSome && (seqOpt os).isSome) := by
  cases o <;> cases hs : seqOpt os <;> simp [seqOpt, hs]

theorem broadcastDim_isSome (x y : Nat) :
    (broadcastDim x y).isSome = true ↔ (x = y ∨ x = 1 ∨ y = 1) := by
  rw [broadcastDim]
  split
  next h => simp [h]
  next h =>
    split
    next h1 => simp [h1]
    next h1 =>
      split
      next h2 => simp [h2]
      next h2 => simp [h, h1, h2]

theorem seqOpt_broadcast (a : List Nat) : ∀ b : List Nat, a.length = b.length →
    ((seqOpt (List.zipWith broadcastDim a b)).isSome = true ↔
      ∀ i, i < a.length → a.getD i 0 = b.getD i 0 ∨ a.getD i 0 = 1 ∨ b.getD i 0 = 1) := by
  induction a with
  | nil =>
    intro b h
    simp [seqOpt]
  | cons x xs ih =>
    intro b h
    cases b with
    | nil => simp at h
    | cons y ys =>
      have h2 : xs.length = ys.length := by simpa using h
      rw [List.zipWith_cons_cons, seqOpt_cons_isSome, Bool.and_eq_true, ih ys h2]
      constructor
      · rintro ⟨hb, hrest⟩ i hi
        cases i with
        | zero =>
          simpa [List.getD_cons_zero] using (broadcastDim_isSome x y).1 hb
        | succ i2 =>
          have hi2 : i2 < xs.length := by
            simpa [Nat.succ_lt_succ_iff] using hi
          simpa [List.getD_cons_succ] using hrest i2 hi2
      · intro hall
        refine ⟨(broadcastDim_isSome x y).2 ?_, fun i hi => ?_⟩
        · simpa [List.getD_cons_zero] using hall 0 (by simp)
        · simpa [List.getD_cons_succ] using hall (i + 1) (by simpa [Nat.succ_lt_succ_iff] using hi)

theorem broadcastShape_isSome (a b : List Nat) :
    (broadcastShape a b).isSome = true ↔ BCompat a b := by
  rw [broadcastShape, BCompat]
  by_cases ha : a.length = 0
  · rw [if_pos ha]
    simp [List.length_eq_zero.mp ha]
  · rw [if_neg ha]
    by_cases hb : b.length = 0
    · rw [if_pos hb]
      simp [List.length_eq_zero.mp hb]
    · rw [if_neg hb]
      by_cases hab : a.length = b.length
      · rw [if_pos hab, seqOpt_broadcast a b hab]
        constructor
        · intro h
          exact Or.inr (Or.inr ⟨hab, h⟩)
        · rintro (h | h | ⟨_, h⟩)
          · exact absurd (h ▸ rfl) ha
          · exact absurd (h ▸ rfl) hb
          · exact h
      · rw [if_neg hab]
        simp only [Option.isSome_none, Bool.false_eq_true, false_iff]
        rintro (h | h | ⟨hl, _⟩)
        · exact ha (h ▸ rfl)
        · exact hb (h ▸ rfl)
        · exact hab hl

/-- Rank-1 view of extent 2 holding `10, 20`. -/
def exA2 : SView :=
  { mem := [10, 20], off := 0, dims := [2], strides := [1], layout := SLayout.Dense }

/-- Rank-1 view of extent 1 holding `7`. -/
def exB1 : SView :=
  { mem := [7], off := 0, dims := [1], strides := [1], layout := SLayout.Dense }

/-- Rank-1 view of extent 3 holding `1, 2, 3`. -/
def exC3 : SView :=
  { mem := [1, 2, 3], off := 0, dims := [3], strides := [1], layout := SLayout.Dense }

/-- C6: `Zip` (as used by `assign`) begins traversal iff the shapes are
broadcast-compatible — on every axis the sizes are equal, or one is exactly
1 (replicated to the other's extent), or one side is rank-0 — failing
before any element is paired otherwise; when A has extent `d` and B extent 1
on an axis, B's single slice is paired with every one of A's `d` positions
(concretely: zipping extent 2 against extent 1 pairs `7` with both
positions). -/
theorem zip_broadcast_spec :
    (∀ va vb : SView, (zipViews va vb).isSome = true ↔ BCompat va.dims vb.dims) ∧
    (∀ va vb : SView, ¬ BCompat va.dims vb.dims → zipViews va vb = none) ∧
    (∀ (va vb : SView) (ds : List Nat), broadcastShape va.dims vb.dims = some ds →
      zipViews va vb = some ((allIdx ds).map fun idx =>
        (readV va (clampIdx va.dims idx), readV vb (clampIdx vb.dims idx)))) ∧
    zipViews exA2 exB1 = some [(10, 7), (20, 7)] := by
  refine ⟨?_, ?_, ?_, by decide⟩
  · intro va vb
    rw [← broadcastShape_isSome]
    cases hb : broadcastShape va.dims vb.dims <;> simp [zipViews, hb]
  · intro va vb hnc
    cases hb : broadcastShape va.dims vb.dims with
    | none => simp [zipViews, hb]
    | some ds =>
      exact absurd ((broadcastShape_isSome _ _).1 (by rw [hb]; rfl)) hnc
  · intro va vb ds hb
    simp [zipViews, hb]

/-- Witness for C6: broadcast-incompatible extents 2 and 3 fail before any
pair is produced. -/
theorem zip_broadcast_spec_check :
    ¬ BCompat exA2.dims exC3.dims ∧ zipViews exA2 exC3 = none := by
  have h : ¬ BCompat exA2.dims exC3.dims := by
    rintro (h | h | ⟨_, hall⟩)
    · exact absurd h (by decide)
    · exact absurd h (by decide)
    · have h0 := hall 0 (by decide)
      revert h0
      decide
  exact ⟨h, zip_broadcast_spec.2.1 exA2 exC3 h⟩

/-- The in-bounds check of the checked access path: one coordinate per axis,
each within its extent. -/
def inBoundsB (dims idx : List Nat) : Bool :=
  idx.length = dims.length && (List.zipWith (fun i d => decide (i < d)) idx dims).all id

/-- Modelled from the spec: the unchecked access path
(`Slice::get_unchecked`, src/slice.rs:259-266, delegating to `SliceIndex`
outside `src/`): computes the stride offset and reads without bounds
checking. -/
def getUnchecked (v : SView) (idx : List Nat) : Int := readV v idx

/-- Modelled from the spec: the checked access path (`Index::index`,
src/slice.rs:860-866, delegating to `SliceIndex` outside `src/`): validates
every coordinate against its extent, panics (none) when out of range, and
otherwise performs the same offset computation. -/
def indexChecked (v : SView) (idx : List Nat) : Option Int :=
  if inBoundsB v.dims idx then some (readV v idx) else none

/-- C8: for every slice and every in-bounds index, the unchecked access path
returns the same element as the checked access path. -/
theorem checked_eq_unchecked :
    ∀ (v : SView) (idx : List Nat), inBoundsB v.dims idx = true →
      indexChecked v idx = some (getUnchecked v idx) := by
  intro v idx h
  rw [indexChecked, if_pos h]
  rfl

/-- Witness for C8 at the `[2,3]` view and index `(1,2)` (element 6). -/
theorem checked_eq_unchecked_check :
    inBoundsB ex23.dims [1, 2] = true ∧
    indexChecked ex23 [1, 2] = some (getUnchecked ex23 [1, 2]) ∧
    getUnchecked ex23 [1, 2] = 6 :=
  ⟨by decide, checked_eq_unchecked ex23 [1, 2] (by decide), by decide⟩

/-- C10: every view-producing transform (transpose, permute, reshape,
split_axis_at, axis_at, row, col) only constructs a new view over the same
backing memory: the result (when the operation succeeds) shares the source's
memory unchanged, and the source slice itself — a value the pure model never
mutates, matching the `&self` receivers in src/slice.rs — keeps its shape,
strides and elements. -/
theorem transforms_share_memory :
    ∀ (v : SView) (p tgt : List Nat) (a i mid : Nat),
      (transposeT v).mem = v.mem ∧
      ((transposeV v).map SView.mem).getD v.mem = v.mem ∧
      ((permuteV v p).map SView.mem).getD v.mem = v.mem ∧
      ((reshapeV v tgt).map SView.mem).getD v.mem = v.mem ∧
      ((splitAxisAt v a mid).map (fun pr => (pr.1.mem, pr.2.mem))).getD (v.mem, v.mem) =
        (v.mem, v.mem) ∧
      ((axisAt v a i).map SView.mem).getD v.mem = v.mem ∧
      ((rowV v i).map SView.mem).getD v.mem = v.mem ∧
      ((colV v i).map SView.mem).getD v.mem = v.mem := by
  intro v p tgt a i mid
  refine ⟨rfl, ?_, ?_, ?_, ?_, ?_, ?_, ?_⟩
  · rw [transposeV]
    split <;> rfl
  · rw [permuteV]
    split <;> rfl
  · rw [reshapeV]
    cases resolveDims v.dims.prod tgt with
    | none => rfl
    | some ns =>
      rw [Option.some_bind']
      cases stridesAdmit v ns with
      | none => rfl
      | some cs => rfl
  · rw [splitAxisAt]
    split <;> rfl
  · rw [axisAt]
    split <;> rfl
  · rw [rowV]
    split <;> rfl
  · rw [colV]
    split <;> rfl
